import Mathlib

/-!
Verification of the solfhe-analyzer core (src/solfhe-analyzer/src/main.rs).

The development shallowly embeds the three pieces of real logic of the
program: URL → keyword extraction (`extract_keywords_from_url`), frequency
aggregation with the inclusion rule (`analyze_link`, `get_most_common_word`),
and the summary encode/decode transform (`zk_compress` = SHA-256 then
padding-free base64, `zk_decompress` = padding-free base64 decode then hex).
The driver loop of `main` is embedded as a step function on the
(batch, frequency-table) state.

Machine integers are modelled as `Nat` with explicit reduction modulo
`2 ^ 32` (resp. `% 256`) where the Rust code computes in `u32` / `u8`;
Rust's `HashMap<String, u32>` is modelled as an association list
(lists that are permutations of one another represent the same table,
iterated in different orders); fallible operations return `Option`.
URL parsing is performed by the external `url` crate, so it is kept
abstract: the embedding is parameterised by a
`parse : String → Option ParsedUrl` function supplying the domain and
path of a successfully parsed URL.
-/

namespace Solfhe

/-- The 20-entry blockchain-network allow-list `BLOCKCHAIN_NETWORKS`. -/
def BLOCKCHAIN_NETWORKS : List String :=
  ["bitcoin", "ethereum", "scroll", "polkadot", "solana", "avalanche", "cosmos",
   "algorand", "mina", "chainlink", "uniswap", "aave", "compound", "maker",
   "polygon", "binance", "tron", "wormhole", "stellar", "filecoin"]

/-- The stoplist `IGNORED_WORDS`. -/
def IGNORED_WORDS : List String :=
  ["http", "https", "www", "com", "org", "net"]

/-- UTF-8 encoding of a single scalar value, as a list of byte values. -/
def utf8EncodeChar (c : Char) : List Nat :=
  let n := c.toNat
  if n < 128 then [n]
  else if n < 2048 then [192 + n / 64, 128 + n % 64]
  else if n < 65536 then [224 + n / 4096, 128 + (n / 64) % 64, 128 + n % 64]
  else [240 + n / 262144, 128 + (n / 4096) % 64, 128 + (n / 64) % 64, 128 + n % 64]

/-- The UTF-8 bytes of a string (Rust strings are UTF-8; `str::len` and
`Sha256::update` both see these bytes). -/
def utf8Bytes (s : String) : List Nat :=
  s.data.foldr (fun c acc => utf8EncodeChar c ++ acc) []

/-- Rust `str::len`: the length of a string in UTF-8 bytes. -/
def wordLen (s : String) : Nat := (utf8Bytes s).length

/-- The inclusion rule applied by `analyze_link`:
`BLOCKCHAIN_NETWORKS.contains(&word.as_str()) || word.len() > 3`. -/
def qualifies (w : String) : Bool :=
  BLOCKCHAIN_NETWORKS.contains w || decide (3 < wordLen w)

/-- Rust `str::split(sep)` on the character list of a string: splitting an
empty string yields one empty segment, and separators at either end yield
empty segments, exactly as in Rust. -/
def splitOnChar (sep : Char) : List Char → List (List Char)
  | [] => [[]]
  | c :: rest =>
    match splitOnChar sep rest with
    | [] => [[]]
    | seg :: segs => if c = sep then [] :: seg :: segs else (c :: seg) :: segs

/-- The outcome of successfully parsing a URL with the `url` crate, as far as
`extract_keywords_from_url` consumes it: `parsed_url.domain().unwrap_or("")`
and `parsed_url.path()`. -/
structure ParsedUrl where
  domain : String
  path : String
deriving DecidableEq

/-- Lower-casing of one character as Rust applies it to these ASCII segments. -/
def lowerChar (c : Char) : Char := c.toLower

/-- Lower-casing of a segment (`str::to_lowercase`). -/
def lowerSeg (seg : List Char) : List Char := seg.map lowerChar

/-- `extract_keywords_from_url`: on parse success, split the domain on `.`
and chain the path split on `/`; drop a segment when it is empty or its
lower-casing is a stoplist member, otherwise keep its lower-casing.
On parse failure return the empty list. -/
def extract_keywords_from_url (parse : String → Option ParsedUrl) (url : String) :
    List String :=
  match parse url with
  | some pu =>
    ((splitOnChar '.' pu.domain.data) ++ (splitOnChar '/' pu.path.data)).filterMap
      (fun seg =>
        if seg.isEmpty || IGNORED_WORDS.contains (String.mk (lowerSeg seg)) then none
        else some (String.mk (lowerSeg seg)))
  | none => []

/-- Reduction to a 32-bit word. -/
def w32 (n : Nat) : Nat := n % 4294967296

/-- `*word_counter.entry(word).or_insert(0) += 1` on the association-list
model of the `HashMap<String, u32>`: increment in place when the key is
present, otherwise insert it with count 1. The increment is a `u32`
addition, so it wraps modulo `2 ^ 32` (release-mode Rust semantics). -/
def bump (w : String) : List (String × Nat) → List (String × Nat)
  | [] => [(w, 1)]
  | (k, c) :: rest => if k = w then (k, w32 (c + 1)) :: rest else (k, c) :: bump w rest

/-- The aggregation loop of `analyze_link` over an already-extracted keyword
list: count a word iff it satisfies the inclusion rule. -/
def analyze_words (ws : List String) (counter : List (String × Nat)) :
    List (String × Nat) :=
  ws.foldl (fun m w => if qualifies w then bump w m else m) counter

/-- `analyze_link`: extract the keywords of a link and record them. -/
def analyze_link (parse : String → Option ParsedUrl) (link : String)
    (counter : List (String × Nat)) : List (String × Nat) :=
  analyze_words (extract_keywords_from_url parse link) counter

/-- `HashMap::get` on the association-list model. -/
def lookupList (m : List (String × Nat)) (w : String) : Option Nat :=
  match m with
  | [] => none
  | (k, c) :: rest => if k = w then some c else lookupList rest w

/-- The stored count of `w`, defaulting to 0 when absent. -/
def lookupD (m : List (String × Nat)) (w : String) : Nat :=
  (lookupList m w).getD 0

/-- One comparison step of `iter().max_by_key(count)`: keep the later entry
on ties, exactly as Rust's `max_by_key` (it returns the last maximal
element in iteration order). -/
def maxByCount (acc : Option (String × Nat)) (p : String × Nat) :
    Option (String × Nat) :=
  match acc with
  | none => some p
  | some q => if q.2 ≤ p.2 then some p else some q

/-- `get_most_common_word`: `iter().max_by_key(count)` over the table's
iteration sequence, then clone the winning entry. -/
def get_most_common_word (entries : List (String × Nat)) : Option (String × Nat) :=
  entries.foldl maxByCount none

/-! ### SHA-256 (the `sha2` crate), on `Nat` words reduced modulo `2 ^ 32` -/

/-- Rotate a 32-bit word right by `n` positions. -/
def rotr (x n : Nat) : Nat := w32 ((x >>> n) ||| (x <<< (32 - n)))

/-- Big sigma 0. -/
def bsig0 (x : Nat) : Nat := (rotr x 2) ^^^ (rotr x 13) ^^^ (rotr x 22)

/-- Big sigma 1. -/
def bsig1 (x : Nat) : Nat := (rotr x 6) ^^^ (rotr x 11) ^^^ (rotr x 25)

/-- Small sigma 0. -/
def ssig0 (x : Nat) : Nat := (rotr x 7) ^^^ (rotr x 18) ^^^ (x >>> 3)

/-- Small sigma 1. -/
def ssig1 (x : Nat) : Nat := (rotr x 17) ^^^ (rotr x 19) ^^^ (x >>> 10)

/-- Choice function. -/
def chF (e f g : Nat) : Nat := (e &&& f) ^^^ ((e ^^^ 4294967295) &&& g)

/-- Majority function. -/
def majF (a b c : Nat) : Nat := (a &&& b) ^^^ (a &&& c) ^^^ (b &&& c)

/-- The round-constant table of SHA-256 (fractional parts of the cube roots
of the first 64 primes), written in decimal. -/
def shaK : List Nat :=
  [1116352408, 1899447441, 3049323471, 3921009573, 961987163,
   1508970993, 2453635748, 2870763221, 3624381080, 310598401,
   607225278, 1426881987, 1925078388, 2162078206, 2614888103,
   3248222580, 3835390401, 4022224774, 264347078, 604807628,
   770255983, 1249150122, 1555081692, 1996064986, 2554220882,
   2821834349, 2952996808, 3210313671, 3336571891, 3584528711,
   113926993, 338241895, 666307205, 773529912, 1294757372,
   1396182291, 1695183700, 1986661051, 2177026350, 2456956037,
   2730485921, 2820302411, 3259730800, 3345764771, 3516065817,
   3600352804, 4094571909, 275423344, 430227734, 506948616,
   659060556, 883997877, 958139571, 1322822218, 1537002063,
   1747873779, 1955562222, 2024104815, 2227730452, 2361852424,
   2428436474, 2756734187, 3204031479, 3329325298]

/-- The eight 32-bit words of the SHA-256 working state. -/
structure ShaState where
  a : Nat
  b : Nat
  c : Nat
  d : Nat
  e : Nat
  f : Nat
  g : Nat
  h : Nat

/-- The initial hash words of SHA-256, written in decimal. -/
def shaInit : ShaState :=
  ⟨1779033703, 3144134277, 1013904242, 2773480762,
   1359893119, 2600822924, 528734635, 1541459225⟩

/-- The 64-entry message schedule of one 16-word block, built left to right. -/
def shaSchedule (block : List Nat) : List Nat :=
  (List.range 64).foldl
    (fun ws t =>
      if t < 16 then ws ++ [w32 (block.getD t 0)]
      else ws ++ [w32 (ssig1 (ws.getD (t - 2) 0) + ws.getD (t - 7) 0 +
                       ssig0 (ws.getD (t - 15) 0) + ws.getD (t - 16) 0)])
    []

/-- One SHA-256 round with round constant `k` and schedule word `w`. -/
def shaRound (st : ShaState) (k w : Nat) : ShaState :=
  let t1 := w32 (st.h + bsig1 st.e + chF st.e st.f st.g + k + w)
  let t2 := w32 (bsig0 st.a + majF st.a st.b st.c)
  ⟨w32 (t1 + t2), st.a, st.b, st.c, w32 (st.d + t1), st.e, st.f, st.g⟩

/-- Compress one 16-word block into the running state. -/
def shaCompress (st : ShaState) (block : List Nat) : ShaState :=
  let ws := shaSchedule block
  let r := (List.range 64).foldl (fun s t => shaRound s (shaK.getD t 0) (ws.getD t 0)) st
  ⟨w32 (st.a + r.a), w32 (st.b + r.b), w32 (st.c + r.c), w32 (st.d + r.d),
   w32 (st.e + r.e), w32 (st.f + r.f), w32 (st.g + r.g), w32 (st.h + r.h)⟩

/-- Fold the compression function over the message words, 16 at a time. -/
def shaProcess (st : ShaState) (ws : List Nat) : ShaState :=
  match ws with
  | [] => st
  | w :: rest => shaProcess (shaCompress st (w :: rest.take 15)) (rest.drop 15)
termination_by ws.length
decreasing_by simp [List.length_drop]; omega

/-- Big-endian bytes of the 64-bit message bit length. -/
def lenBytes (n : Nat) : List Nat :=
  [n / 2 ^ 56 % 256, n / 2 ^ 48 % 256, n / 2 ^ 40 % 256, n / 2 ^ 32 % 256,
   n / 2 ^ 24 % 256, n / 2 ^ 16 % 256, n / 2 ^ 8 % 256, n % 256]

/-- SHA-256 padding: append `0x80`, zeros to 56 mod 64, then the bit length. -/
def shaPad (msg : List Nat) : List Nat :=
  let L := msg.length
  msg ++ [128] ++ List.replicate ((64 - (L + 9) % 64) % 64) 0 ++ lenBytes (8 * L)

/-- Pack big-endian groups of four bytes into 32-bit words. -/
def toWords : List Nat → List Nat
  | a :: b :: c :: d :: rest =>
    (a % 256 * 2 ^ 24 + b % 256 * 2 ^ 16 + c % 256 * 2 ^ 8 + d % 256) :: toWords rest
  | _ => []

/-- Big-endian bytes of one 32-bit word. -/
def wordBytes (w : Nat) : List Nat :=
  [w / 2 ^ 24 % 256, w / 2 ^ 16 % 256, w / 2 ^ 8 % 256, w % 256]

/-- The 32 digest bytes of a final state. -/
def stateBytes (st : ShaState) : List Nat :=
  wordBytes st.a ++ wordBytes st.b ++ wordBytes st.c ++ wordBytes st.d ++
  wordBytes st.e ++ wordBytes st.f ++ wordBytes st.g ++ wordBytes st.h

/-- SHA-256 of a byte sequence. -/
def sha256 (msg : List Nat) : List Nat :=
  stateBytes (shaProcess shaInit (toWords (shaPad msg)))

/-! ### Padding-free standard base64 (`general_purpose::STANDARD_NO_PAD`) -/

/-- The standard base64 alphabet, as a function on sextet values. -/
def b64Char (n : Nat) : Char :=
  Char.ofNat
    (if n < 26 then 65 + n
     else if n < 52 then 97 + (n - 26)
     else if n < 62 then 48 + (n - 52)
     else if n = 62 then 43 else 47)

/-- The inverse alphabet: `none` on a character outside the standard
alphabet (including the padding character `=`, which `STANDARD_NO_PAD`
rejects). -/
def b64Val (c : Char) : Option Nat :=
  if 65 ≤ c.toNat ∧ c.toNat ≤ 90 then some (c.toNat - 65)
  else if 97 ≤ c.toNat ∧ c.toNat ≤ 122 then some (c.toNat - 97 + 26)
  else if 48 ≤ c.toNat ∧ c.toNat ≤ 57 then some (c.toNat - 48 + 52)
  else if c.toNat = 43 then some 62
  else if c.toNat = 47 then some 63
  else none

/-- Encode bytes into base64 sextet values, three bytes to four sextets,
with the standard short final group and no padding. -/
def b64EncSextets : List Nat → List Nat
  | [] => []
  | [b1] => [b1 / 4, b1 % 4 * 16]
  | [b1, b2] => [b1 / 4, b1 % 4 * 16 + b2 / 16, b2 % 16 * 4]
  | b1 :: b2 :: b3 :: rest =>
    (b1 / 4) :: (b1 % 4 * 16 + b2 / 16) :: (b2 % 16 * 4 + b3 / 64) :: (b3 % 64) ::
      b64EncSextets rest

/-- Padding-free base64 encoding of a byte sequence. -/
def b64Encode (bytes : List Nat) : String :=
  String.mk ((b64EncSextets bytes).map b64Char)

/-- Decode base64 sextet values back into bytes. A trailing group of one
sextet is an invalid length; a short final group whose unused low bits are
not zero is rejected (the crate's default `decode_allow_trailing_bits =
false`). -/
def b64DecSextets : List Nat → Option (List Nat)
  | [] => some []
  | [_] => none
  | [s1, s2] => if s2 % 16 = 0 then some [s1 * 4 + s2 / 16] else none
  | [s1, s2, s3] =>
    if s3 % 4 = 0 then some [s1 * 4 + s2 / 16, s2 % 16 * 16 + s3 / 4] else none
  | s1 :: s2 :: s3 :: s4 :: rest =>
    (b64DecSextets rest).map
      (fun bs => (s1 * 4 + s2 / 16) :: (s2 % 16 * 16 + s3 / 4) ::
                 (s3 % 4 * 64 + s4) :: bs)

/-- Read every character through the inverse alphabet, failing on the first
character outside it. -/
def charsToSextets : List Char → Option (List Nat)
  | [] => some []
  | c :: rest => (b64Val c).bind (fun v => (charsToSextets rest).map (fun vs => v :: vs))

/-- Padding-free base64 decoding: `none` models `Err(DecodeError)`. -/
def b64Decode (s : String) : Option (List Nat) :=
  (charsToSextets s.data).bind b64DecSextets

/-! ### hex, JSON serialization and the two `zk_` transforms -/

/-- One lowercase hexadecimal digit. -/
def hexDigit (n : Nat) : Char := Char.ofNat (if n < 10 then 48 + n else 87 + n)

/-- `hex::encode`: two lowercase hex digits per byte. -/
def hexEncode (bytes : List Nat) : String :=
  String.mk (bytes.foldr (fun b acc => hexDigit (b / 16 % 16) :: hexDigit (b % 16) :: acc) [])

/-- `zk_compress`: SHA-256 over the UTF-8 bytes of the input string, rendered
as padding-free base64. -/
def zk_compress (data : String) : String := b64Encode (sha256 (utf8Bytes data))

/-- `zk_decompress`: padding-free base64 decode, then hex-render the bytes;
`none` models the propagated `base64::DecodeError`. -/
def zk_decompress (compressed_data : String) : Option String :=
  (b64Decode compressed_data).map hexEncode

/-- JSON string escaping as `serde_json` performs it: `\"` and `\\` escapes,
short escapes for backspace, tab, newline, form feed and carriage return,
and `\u00xx` for the remaining control characters. -/
def jsonEscapeChar (c : Char) : List Char :=
  if c = '"' then ['\\', '"']
  else if c = '\\' then ['\\', '\\']
  else if c.toNat = 8 then ['\\', 'b']
  else if c.toNat = 9 then ['\\', 't']
  else if c.toNat = 10 then ['\\', 'n']
  else if c.toNat = 12 then ['\\', 'f']
  else if c.toNat = 13 then ['\\', 'r']
  else if c.toNat < 32 then
    ['\\', 'u', '0', '0', hexDigit (c.toNat / 16), hexDigit (c.toNat % 16)]
  else [c]

/-- Escape a whole JSON string body. -/
def jsonEscape (s : String) : String :=
  String.mk (s.data.foldr (fun c acc => jsonEscapeChar c ++ acc) [])

/-- The summary value of `main` serialized by `serde_json::Value::to_string`:
`serde_json`'s map is ordered, so keys come out sorted (`count` before
`most_common_word`). -/
def summaryJson : Option (String × Nat) → String
  | some (w, c) =>
    "\x7b\"count\":" ++ toString c ++ ",\"most_common_word\":\"" ++ jsonEscape w ++ "\"\x7d"
  | none => "\x7b\"error\":\"No words analyzed yet\"\x7d"

/-- The full summary encoder of `main`: serialize, then `zk_compress`. -/
def encodeSummary (summary : Option (String × Nat)) : String :=
  zk_compress (summaryJson summary)

/-! ### The driver loop state of `main` -/

/-- The mutable state of `main`: the batch `links` and the `word_counter`. -/
structure AState where
  links : List String
  counter : List (String × Nat)
deriving DecidableEq

/-- One turn of the inner `for url in urls` loop of `main`: skip a URL
already in the batch; otherwise push it, analyze it, and flush (clear both
the batch and the table) as soon as the batch length reaches 5. -/
def processUrl (parse : String → Option ParsedUrl) (st : AState) (url : String) :
    AState :=
  if st.links.contains url then st
  else
    let links' := st.links ++ [url]
    let counter' := analyze_link parse url st.counter
    if 5 ≤ links'.length then ⟨[], []⟩ else ⟨links', counter'⟩

/-- The inner loop of `main` over one fetched URL list. -/
def processUrls (parse : String → Option ParsedUrl) (st : AState)
    (urls : List String) : AState :=
  urls.foldl (processUrl parse) st

/-- The extractor as the spec describes it, for the refinement comparison of
the code-side `extract_keywords_from_url`: the host segments followed by
the path segments, each lower-cased, then with empty segments and stoplist
members removed, order preserved and duplicates kept. -/
def extractSpec (host path : String) : List String :=
  ((splitOnChar '.' host.data ++ splitOnChar '/' path.data).map lowerSeg).filterMap
    (fun seg =>
      if seg.isEmpty || IGNORED_WORDS.contains (String.mk seg) then none
      else some (String.mk seg))

/-! ## Aggregation lemmas -/

/-- Bumping a word finds it with its previous count (default 0) plus one,
wrapped to a `u32`. -/
lemma lookup_bump_self (m : List (String × Nat)) (w : String) :
    lookupList (bump w m) w = some (w32 (lookupD m w + 1)) := by
  induction m with
  | nil => simp [bump, lookupList, lookupD, w32]
  | cons p rest ih =>
    obtain ⟨k, c⟩ := p
    by_cases h : k = w
    · subst h
      simp [bump, lookupList, lookupD]
    · simp [bump, lookupList, lookupD, h, ih]

/-- Bumping a word leaves every other key's entry unchanged. -/
lemma lookup_bump_ne (m : List (String × Nat)) (w v : String) (hv : v ≠ w) :
    lookupList (bump w m) v = lookupList m v := by
  induction m with
  | nil => simp [bump, lookupList, Ne.symm hv]
  | cons p rest ih =>
    obtain ⟨k, c⟩ := p
    by_cases h : k = w
    · subst h
      simp [bump, lookupList, Ne.symm hv]
    · by_cases hkv : k = v
      · simp [bump, lookupList, h, hkv, hv]
      · simp [bump, lookupList, h, hkv, ih]

/-- Recording one keyword list: a qualifying word that occurs gains its
occurrence count on top of its stored count, with the running value wrapped
to a `u32` at every increment (so the result is the wrapped sum); everything
else is untouched. -/
lemma lookup_analyze_words (ks : List String) (m : List (String × Nat)) (w : String) :
    lookupList (analyze_words ks m) w =
      if qualifies w = true ∧ 0 < ks.count w then some (w32 (lookupD m w + ks.count w))
      else lookupList m w := by
  induction ks generalizing m with
  | nil => simp [analyze_words]
  | cons k rest ih =>
    have hstep : analyze_words (k :: rest) m =
        analyze_words rest (if qualifies k then bump k m else m) := rfl
    rw [hstep]
    by_cases hq : qualifies k
    · by_cases hkw : k = w
      · subst hkw
        rw [if_pos hq, ih (bump k m)]
        have hbump := lookup_bump_self m k
        have hbd : lookupD (bump k m) k = w32 (lookupD m k + 1) := by
          simp [lookupD, hbump]
        by_cases hc : 0 < rest.count k
        · rw [if_pos ⟨hq, hc⟩, if_pos ⟨hq, by simp [List.count_cons]⟩]
          simp only [hbd, List.count_cons, beq_self_eq_true, if_true, w32,
            Option.some.injEq]
          omega
        · rw [if_neg (by tauto), if_pos ⟨hq, by simp [List.count_cons]⟩]
          have hc0 : rest.count k = 0 := by omega
          simp [hbump, hc0, List.count_cons]
      · rw [if_pos hq, ih (bump k m)]
        have hne := lookup_bump_ne m k w (Ne.symm hkw)
        have hcc : (k :: rest).count w = rest.count w := by
          simp [List.count_cons, hkw]
        rw [hcc]
        by_cases hcond : qualifies w = true ∧ 0 < rest.count w
        · rw [if_pos hcond, if_pos hcond]
          simp [lookupD, hne]
        · rw [if_neg hcond, if_neg hcond, hne]
    · rw [if_neg hq, ih m]
      by_cases hkw : k = w
      · subst hkw
        have hqw : ¬ qualifies k = true := hq
        rw [if_neg (by tauto), if_neg (by tauto)]
      · have hcc : (k :: rest).count w = rest.count w := by
          simp [List.count_cons, hkw]
        rw [hcc]

/-- Recording a concatenation is recording the pieces in order. -/
lemma analyze_words_append (a b : List String) (m : List (String × Nat)) :
    analyze_words (a ++ b) m = analyze_words b (analyze_words a m) := by
  simp [analyze_words, List.foldl_append]

/-- A fold of `analyze_words` over many keyword lists is one run over their
concatenation. -/
lemma foldl_analyze_eq_flatten (kss : List (List String)) (m : List (String × Nat)) :
    kss.foldl (fun m ks => analyze_words ks m) m = analyze_words kss.flatten m := by
  induction kss generalizing m with
  | nil => simp [analyze_words]
  | cons ks rest ih =>
    simp only [List.foldl_cons, List.flatten_cons, analyze_words_append]
    exact ih (analyze_words ks m)

/-- C1 counterexample: the claimed exact count fails on the `u32` counter.
The keyword `"aaaa"` qualifies and occurs exactly `2 ^ 32` times in the
recorded lists, yet the stored count after recording is 0, not `2 ^ 32`:
the `u32` increment wraps in release-mode Rust. -/
theorem C1_counterexample :
    qualifies "aaaa" = true ∧
    ([List.replicate 4294967296 "aaaa"] : List (List String)).flatten.count "aaaa"
      = 4294967296 ∧
    lookupList (([List.replicate 4294967296 "aaaa"] : List (List String)).foldl
        (fun m ks => analyze_words ks m) []) "aaaa" = some 0 := by
  have hcount :
      ([List.replicate 4294967296 "aaaa"] : List (List String)).flatten.count "aaaa"
        = 4294967296 := by
    rw [List.flatten_cons, List.flatten_nil, List.append_nil, List.count_replicate_self]
  refine ⟨by decide, hcount, ?_⟩
  rw [foldl_analyze_eq_flatten, lookup_analyze_words, hcount]
  rw [if_pos ⟨by decide, by norm_num⟩]
  simp [lookupD, lookupList, w32]

/-- C1 (amended): starting from the empty table (the state right after a
reset), after any sequence of record calls the table maps a keyword to
`some c` exactly when the keyword satisfies the inclusion rule and occurs
at least once across all recorded keyword lists, with `c` the occurrence
count reduced modulo `2 ^ 32` (the `u32` counter wraps); whenever the
occurrence count stays below `2 ^ 32` the stored count is exactly the
occurrence count. A keyword failing the rule (or never occurring) has no
entry. -/
theorem C1_aggregation_wrapped (kss : List (List String)) (w : String) :
    (lookupList (kss.foldl (fun m ks => analyze_words ks m) []) w =
      if qualifies w = true ∧ 0 < kss.flatten.count w
      then some (w32 (kss.flatten.count w)) else none) ∧
    (kss.flatten.count w < 4294967296 →
      lookupList (kss.foldl (fun m ks => analyze_words ks m) []) w =
        if qualifies w = true ∧ 0 < kss.flatten.count w
        then some (kss.flatten.count w) else none) := by
  have h1 : lookupList (kss.foldl (fun m ks => analyze_words ks m) []) w =
      if qualifies w = true ∧ 0 < kss.flatten.count w
      then some (w32 (kss.flatten.count w)) else none := by
    rw [foldl_analyze_eq_flatten, lookup_analyze_words]
    simp [lookupD, lookupList]
  refine ⟨h1, fun hlt => ?_⟩
  rw [h1]
  have hfix : w32 (kss.flatten.count w) = kss.flatten.count w := Nat.mod_eq_of_lt hlt
  rw [hfix]

/-- C1 witness: two record calls of one qualifying keyword, well below the
wrap bound, store exactly its occurrence count. -/
theorem C1_witness :
    lookupList (([["solana"], ["solana"]] : List (List String)).foldl
        (fun m ks => analyze_words ks m) []) "solana" =
      if qualifies "solana" = true ∧
          0 < ([["solana"], ["solana"]] : List (List String)).flatten.count "solana"
      then some (([["solana"], ["solana"]] : List (List String)).flatten.count "solana")
      else none :=
  (C1_aggregation_wrapped [["solana"], ["solana"]] "solana").2 (by decide)

/-! ## Most-frequent lemmas -/

/-- Folding `maxByCount` from a seed yields an entry that is the seed or a
list member, dominates the seed, and dominates every list member. -/
lemma gmcw_aux (l : List (String × Nat)) :
    ∀ q : String × Nat, ∃ r, l.foldl maxByCount (some q) = some r ∧
      (r = q ∨ r ∈ l) ∧ q.2 ≤ r.2 ∧ ∀ p ∈ l, p.2 ≤ r.2 := by
  induction l with
  | nil => exact fun q => ⟨q, rfl, Or.inl rfl, le_refl _, by simp⟩
  | cons p rest ih =>
    intro q
    by_cases h : q.2 ≤ p.2
    · obtain ⟨r, hr, hmem, hle, hall⟩ := ih p
      refine ⟨r, ?_, ?_, ?_, ?_⟩
      · simpa [maxByCount, h] using hr
      · rcases hmem with h1 | h1
        · exact Or.inr (by simp [h1])
        · exact Or.inr (by simp [h1])
      · exact le_trans h hle
      · intro x hx
        rcases List.mem_cons.mp hx with h1 | h1
        · exact h1 ▸ hle
        · exact hall x h1
    · obtain ⟨r, hr, hmem, hle, hall⟩ := ih q
      refine ⟨r, ?_, ?_, ?_, ?_⟩
      · simpa [maxByCount, h] using hr
      · rcases hmem with h1 | h1
        · exact Or.inl h1
        · exact Or.inr (by simp [h1])
      · exact hle
      · intro x hx
        rcases List.mem_cons.mp hx with h1 | h1
        · exact h1 ▸ (le_trans (le_of_not_le h) hle)
        · exact hall x h1

/-- C5: `get_most_common_word` returns `none` exactly on the empty table,
and otherwise a table entry whose count is maximal. -/
theorem C5_most_frequent (l : List (String × Nat)) :
    (get_most_common_word l = none ↔ l = []) ∧
    (∀ w c, get_most_common_word l = some (w, c) → (w, c) ∈ l ∧ ∀ p ∈ l, p.2 ≤ c) := by
  cases l with
  | nil =>
    constructor
    · simp [get_most_common_word]
    · intro w c h
      simp [get_most_common_word] at h
  | cons x rest =>
    obtain ⟨r, hr, hmem, hle, hall⟩ := gmcw_aux rest x
    have hg : get_most_common_word (x :: rest) = some r := by
      simpa [get_most_common_word, maxByCount] using hr
    constructor
    · simp [hg]
    · intro w c hwc
      rw [hg] at hwc
      have hrwc : r = (w, c) := by injection hwc
      subst hrwc
      refine ⟨?_, ?_⟩
      · rcases hmem with h1 | h1
        · simp [h1]
        · simp [h1]
      · intro p hp
        rcases List.mem_cons.mp hp with h1 | h1
        · exact h1 ▸ hle
        · exact hall p h1

/-- C5 witness: on a concrete two-entry table the returned entry is a member
attaining the maximal count. -/
theorem C5_witness :
    (("bbbb", 5) ∈ ([("aaaa", 2), ("bbbb", 5)] : List (String × Nat))) ∧
    ∀ p ∈ ([("aaaa", 2), ("bbbb", 5)] : List (String × Nat)), p.2 ≤ 5 :=
  (C5_most_frequent [("aaaa", 2), ("bbbb", 5)]).2 "bbbb" 5 (by decide)

/-- C6 counterexample: two association lists that are permutations of one
another with pairwise-distinct keys — hence two iteration orders of one and
the same two-entry `HashMap` — on which `get_most_common_word` returns two
different winners for the tied maximal count. `HashMap`'s iteration order is
seeded at random per process, so equal tables across two runs can present
exactly these two orders. -/
theorem C6_counterexample :
    ([("aaaa", 1), ("bbbb", 1)] : List (String × Nat)).Perm
      ([("bbbb", 1), ("aaaa", 1)] : List (String × Nat)) ∧
    (List.map Prod.fst ([("aaaa", 1), ("bbbb", 1)] : List (String × Nat))).Nodup ∧
    get_most_common_word [("aaaa", 1), ("bbbb", 1)] ≠
      get_most_common_word [("bbbb", 1), ("aaaa", 1)] := by
  decide

/-- C6 (amended): the winner is a deterministic function of the table's
iteration sequence and always attains the maximal count, but it is not
invariant under reordering of equal tables, so determinism across runs
fails for tied counts. -/
theorem C6_deterministic_given_order (l : List (String × Nat)) (hne : l ≠ []) :
    ∃ p, get_most_common_word l = some p ∧ p ∈ l ∧ ∀ q ∈ l, q.2 ≤ p.2 := by
  cases l with
  | nil => exact absurd rfl hne
  | cons x rest =>
    obtain ⟨r, hr, hmem, hle, hall⟩ := gmcw_aux rest x
    refine ⟨r, by simpa [get_most_common_word, maxByCount] using hr, ?_, ?_⟩
    · rcases hmem with h1 | h1
      · simp [h1]
      · simp [h1]
    · intro p hp
      rcases List.mem_cons.mp hp with h1 | h1
      · exact h1 ▸ hle
      · exact hall p h1

/-- C6 witness: the amended statement at a concrete one-entry table. -/
theorem C6_witness :
    ∃ p, get_most_common_word [("aaaa", 7)] = some p ∧
      p ∈ ([("aaaa", 7)] : List (String × Nat)) ∧
      ∀ q ∈ ([("aaaa", 7)] : List (String × Nat)), q.2 ≤ p.2 :=
  C6_deterministic_given_order [("aaaa", 7)] (by decide)

/-- C8: when the URL fails to parse, the extractor returns the empty list —
a silent skip contributing zero keywords, with no error value at all (the
embedding is a total function into plain lists). -/
theorem C8_parse_failure (parse : String → Option ParsedUrl) (url : String)
    (h : parse url = none) :
    extract_keywords_from_url parse url = [] := by
  simp [extract_keywords_from_url, h]

/-- C8 witness: a concrete unparsable input under a parse function that
rejects everything. -/
theorem C8_witness :
    extract_keywords_from_url (fun _ => none) "not a url" = [] :=
  C8_parse_failure (fun _ => none) "not a url" rfl

/-- One driver step keeps the batch length at most 4. -/
lemma processUrl_length (parse : String → Option ParsedUrl) (st : AState)
    (url : String) (h : st.links.length ≤ 4) :
    (processUrl parse st url).links.length ≤ 4 := by
  by_cases hc : url ∈ st.links
  · simpa [processUrl, hc] using h
  · have hshape : processUrl parse st url =
        if 5 ≤ (st.links ++ [url]).length then ⟨[], []⟩
        else ⟨st.links ++ [url], analyze_link parse url st.counter⟩ := by
      simp [processUrl, hc]
    rw [hshape]
    split
    · simp
    · rename_i hlen
      simp only [List.length_append, List.length_singleton] at hlen ⊢
      omega

/-- C9: the batch never grows beyond the flush threshold — from any state
with at most 4 batched URLs, processing any fetched URL list leaves at most
4; the step that appends a 5th distinct URL flushes in place, leaving both
the batch and the table empty; and recording a qualifying keyword into the
empty table gives it count 1. -/
theorem C9_batch_flush (parse : String → Option ParsedUrl) (st : AState)
    (url : String) (urls : List String) :
    (st.links.length ≤ 4 → (processUrls parse st urls).links.length ≤ 4) ∧
    (st.links.length = 4 → st.links.contains url = false →
      processUrl parse st url = ⟨[], []⟩) ∧
    (∀ w, qualifies w = true → lookupList (analyze_words [w] []) w = some 1) := by
  refine ⟨?_, ?_, ?_⟩
  · intro h
    induction urls generalizing st with
    | nil => exact h
    | cons u rest ih =>
      exact ih (processUrl parse st u) (processUrl_length parse st u h)
  · intro hlen hc
    have hmem : url ∉ st.links := by simpa using hc
    simp [processUrl, hmem, hlen]
  · intro w hq
    simp [analyze_words, hq, bump, lookupList]

/-- C9 witness: the 5th distinct URL flushes a concrete 4-URL batch to the
empty state, and a concrete qualifying keyword recorded after a flush has
count 1. -/
theorem C9_witness :
    processUrl (fun _ => none) ⟨["a", "b", "c", "d"], []⟩ "e" = ⟨[], []⟩ ∧
    lookupList (analyze_words ["wormhole"] []) "wormhole" = some 1 :=
  ⟨(C9_batch_flush (fun _ => none) ⟨["a", "b", "c", "d"], []⟩ "e" []).2.1 rfl (by decide),
   (C9_batch_flush (fun _ => none) ⟨["a", "b", "c", "d"], []⟩ "e" []).2.2 "wormhole" (by decide)⟩

/-- Every allow-list entry has byte length at least 4. -/
lemma networks_long : ∀ w ∈ BLOCKCHAIN_NETWORKS, 3 < wordLen w := by decide

/-- The inclusion rule collapses to the bare length test. -/
lemma qualifies_eq_len (w : String) : qualifies w = decide (3 < wordLen w) := by
  unfold qualifies
  by_cases h : w ∈ BLOCKCHAIN_NETWORKS
  · have hlong := networks_long w h
    simp [h, hlong]
  · simp [h]

/-- C10: the allow-list has exactly 20 entries, each longer than 3 bytes, so
the inclusion rule is extensionally the length test alone, and the whole
aggregation loop of `analyze_link` is unchanged when the allow-list test is
dropped. -/
theorem C10_allowlist_vacuous :
    BLOCKCHAIN_NETWORKS.length = 20 ∧
    (∀ w ∈ BLOCKCHAIN_NETWORKS, 3 < wordLen w) ∧
    (∀ w, qualifies w = decide (3 < wordLen w)) ∧
    (∀ ws m, analyze_words ws m =
      ws.foldl (fun m w => if 3 < wordLen w then bump w m else m) m) := by
  refine ⟨by decide, networks_long, qualifies_eq_len, ?_⟩
  intro ws m
  induction ws generalizing m with
  | nil => rfl
  | cons k rest ih =>
    have hstep : analyze_words (k :: rest) m =
        analyze_words rest (if qualifies k then bump k m else m) := rfl
    rw [hstep, ih]
    have hhead : (if qualifies k then bump k m else m) =
        (if 3 < wordLen k then bump k m else m) := by
      rw [qualifies_eq_len k]
      by_cases h : 3 < wordLen k
      · simp [h]
      · simp [h]
    rw [hhead, List.foldl_cons]

/-- C10 witness: a concrete allow-list member exceeds 3 bytes, and the rule
equals the bare length test at a concrete short keyword. -/
theorem C10_witness :
    3 < wordLen "mina" ∧ qualifies "zk" = decide (3 < wordLen "zk") :=
  ⟨C10_allowlist_vacuous.2.1 "mina" (by decide),
   C10_allowlist_vacuous.2.2.1 "zk"⟩

/-! ## Extractor lemmas -/

/-- `Char.ofNat` recovers a scalar value below the surrogate range. -/
lemma char_toNat_ofNat (n : Nat) (h : n < 55296) : (Char.ofNat n).toNat = n := by
  unfold Char.ofNat
  rw [dif_pos (Or.inl h)]
  simp [Char.ofNatAux, Char.toNat, UInt32.toNat, UInt32.ofNatCore]

/-- ASCII lower-casing is idempotent. -/
lemma lowerChar_idem (c : Char) : lowerChar (lowerChar c) = lowerChar c := by
  unfold lowerChar Char.toLower
  by_cases h : c.toNat ≥ 65 ∧ c.toNat ≤ 90
  · rw [if_pos h]
    have h2 : (Char.ofNat (c.toNat + 32)).toNat = c.toNat + 32 :=
      char_toNat_ofNat _ (by omega)
    rw [if_neg (by omega)]
  · rw [if_neg h, if_neg h]

/-- Lower-casing preserves (non-)emptiness of a segment. -/
lemma lowerSeg_isEmpty (seg : List Char) : (lowerSeg seg).isEmpty = seg.isEmpty := by
  cases seg <;> simp [lowerSeg]

/-- C2: on every successfully parsed URL the extractor returns exactly what
the spec describes — the host segments then the path segments, lower-cased,
with empty segments and stoplist members removed, in order and with
duplicates kept — and consequently every returned keyword is non-empty,
lower-case (fixed by lower-casing), and not a stoplist member. -/
theorem C2_extract_spec (parse : String → Option ParsedUrl) (url : String)
    (pu : ParsedUrl) (h : parse url = some pu) :
    extract_keywords_from_url parse url = extractSpec pu.domain pu.path ∧
    ∀ k ∈ extract_keywords_from_url parse url,
      k ≠ "" ∧ k.data.map lowerChar = k.data ∧ IGNORED_WORDS.contains k = false := by
  constructor
  · simp only [extract_keywords_from_url, h, extractSpec]
    rw [List.filterMap_map]
    apply List.filterMap_congr
    intro seg _
    simp only [Function.comp_apply, lowerSeg_isEmpty]
  · intro k hk
    simp only [extract_keywords_from_url, h] at hk
    rw [List.mem_filterMap] at hk
    obtain ⟨seg, _, hseg⟩ := hk
    by_cases hcond : seg.isEmpty || IGNORED_WORDS.contains (String.mk (lowerSeg seg))
    · rw [if_pos hcond] at hseg
      exact absurd hseg (by simp)
    · rw [if_neg hcond] at hseg
      have hk2 : String.mk (lowerSeg seg) = k := by injection hseg
      subst hk2
      simp only [Bool.or_eq_true, not_or, Bool.not_eq_true] at hcond
      obtain ⟨hne, hnig⟩ := hcond
      refine ⟨?_, ?_, hnig⟩
      · intro hemp
        have hdata : lowerSeg seg = [] := congrArg String.data hemp
        rw [lowerSeg, List.map_eq_nil_iff] at hdata
        rw [hdata] at hne
        simp at hne
      · show (lowerSeg seg).map lowerChar = lowerSeg seg
        rw [lowerSeg, List.map_map]
        exact List.map_congr_left (fun a _ => lowerChar_idem a)

/-- C2 witness: the extractor and the spec description agree on a concrete
parsed URL, and the keyword invariants hold on its output. -/
theorem C2_witness :
    extract_keywords_from_url
        (fun u => if u = "https://app.uniswap.org/swap"
                  then some ⟨"app.uniswap.org", "/swap"⟩ else none)
        "https://app.uniswap.org/swap" =
      extractSpec "app.uniswap.org" "/swap" ∧
    ∀ k ∈ extract_keywords_from_url
        (fun u => if u = "https://app.uniswap.org/swap"
                  then some ⟨"app.uniswap.org", "/swap"⟩ else none)
        "https://app.uniswap.org/swap",
      k ≠ "" ∧ k.data.map lowerChar = k.data ∧ IGNORED_WORDS.contains k = false :=
  C2_extract_spec _ "https://app.uniswap.org/swap" ⟨"app.uniswap.org", "/swap"⟩
    (by simp)

/-! ## Base64 lemmas -/

/-- The alphabet map and its inverse cancel on sextet values. -/
lemma b64Val_b64Char : ∀ n, n < 64 → b64Val (b64Char n) = some n := by decide

/-- The inverse alphabet determines the character and bounds the sextet. -/
lemma b64Char_b64Val (c : Char) (n : Nat) (h : b64Val c = some n) :
    b64Char n = c ∧ n < 64 := by
  unfold b64Val at h
  split_ifs at h with h1 h2 h3 h4 h5 <;> injection h with hn <;> subst hn
  · refine ⟨?_, by omega⟩
    unfold b64Char
    rw [if_pos (by omega)]
    rw [show 65 + (c.toNat - 65) = c.toNat by omega, Char.ofNat_toNat]
  · refine ⟨?_, by omega⟩
    unfold b64Char
    rw [if_neg (by omega), if_pos (by omega)]
    rw [show 97 + (c.toNat - 97 + 26 - 26) = c.toNat by omega, Char.ofNat_toNat]
  · refine ⟨?_, by omega⟩
    unfold b64Char
    rw [if_neg (by omega), if_neg (by omega), if_pos (by omega)]
    rw [show 48 + (c.toNat - 48 + 52 - 52) = c.toNat by omega, Char.ofNat_toNat]
  · refine ⟨?_, by omega⟩
    unfold b64Char
    rw [if_neg (by omega), if_neg (by omega), if_neg (by omega), if_pos rfl]
    rw [show (43 : Nat) = c.toNat by omega, Char.ofNat_toNat]
  · refine ⟨?_, by omega⟩
    unfold b64Char
    rw [if_neg (by omega), if_neg (by omega), if_neg (by omega), if_neg (by omega)]
    rw [show (47 : Nat) = c.toNat by omega, Char.ofNat_toNat]

/-- Mapping alphabet characters and reading them back is the identity. -/
lemma charsToSextets_map (ss : List Nat) (h : ∀ s ∈ ss, s < 64) :
    charsToSextets (ss.map b64Char) = some ss := by
  induction ss with
  | nil => rfl
  | cons s rest ih =>
    simp only [List.map_cons, charsToSextets]
    rw [b64Val_b64Char s (h s (by simp))]
    rw [ih (fun x hx => h x (by simp [hx]))]
    rfl

/-- A successful character read forces the input to be the rendering of the
produced sextets, all below 64. -/
lemma charsToSextets_inv : ∀ (cs : List Char) (ss : List Nat),
    charsToSextets cs = some ss → cs = ss.map b64Char ∧ ∀ s ∈ ss, s < 64 := by
  intro cs
  induction cs with
  | nil =>
    intro ss h
    simp only [charsToSextets, Option.some.injEq] at h
    subst h
    simp
  | cons c rest ih =>
    intro ss h
    simp only [charsToSextets, Option.bind_eq_some, Option.map_eq_some'] at h
    obtain ⟨v, hv, vs, hvs, hcons⟩ := h
    subst hcons
    obtain ⟨hrest, hlt⟩ := ih vs hvs
    obtain ⟨hchar, hvlt⟩ := b64Char_b64Val c v hv
    constructor
    · simp [hchar, ← hrest]
    · intro s hs
      rcases List.mem_cons.mp hs with h1 | h1
      · exact h1 ▸ hvlt
      · exact hlt s h1

/-- Encoded sextets are below 64 whenever the input bytes are below 256. -/
lemma b64EncSextets_lt : ∀ bs : List Nat, (∀ b ∈ bs, b < 256) →
    ∀ s ∈ b64EncSextets bs, s < 64
  | [], _ => by simp [b64EncSextets]
  | [b1], h => by
    have hb1 : b1 < 256 := h b1 (by simp)
    intro s hs
    simp only [b64EncSextets, List.mem_cons, List.not_mem_nil, or_false] at hs
    rcases hs with h1 | h1 <;> omega
  | [b1, b2], h => by
    have hb1 : b1 < 256 := h b1 (by simp)
    have hb2 : b2 < 256 := h b2 (by simp)
    intro s hs
    simp only [b64EncSextets, List.mem_cons, List.not_mem_nil, or_false] at hs
    rcases hs with h1 | h1 | h1 <;> omega
  | b1 :: b2 :: b3 :: rest, h => by
    have hb1 : b1 < 256 := h b1 (by simp)
    have hb2 : b2 < 256 := h b2 (by simp)
    have hb3 : b3 < 256 := h b3 (by simp)
    intro s hs
    simp only [b64EncSextets, List.mem_cons] at hs
    rcases hs with h1 | h1 | h1 | h1 | h1
    · omega
    · omega
    · omega
    · omega
    · exact b64EncSextets_lt rest (fun x hx => h x (by simp [hx])) s h1

/-- Decoding inverts encoding on the sextet level. -/
lemma b64DecSextets_enc : ∀ bs : List Nat, (∀ b ∈ bs, b < 256) →
    b64DecSextets (b64EncSextets bs) = some bs
  | [], _ => rfl
  | [b1], h => by
    have hb1 : b1 < 256 := h b1 (by simp)
    simp only [b64EncSextets, b64DecSextets]
    rw [if_pos (by omega)]
    have : b1 / 4 * 4 + b1 % 4 * 16 / 16 = b1 := by omega
    rw [this]
  | [b1, b2], h => by
    have hb1 : b1 < 256 := h b1 (by simp)
    have hb2 : b2 < 256 := h b2 (by simp)
    simp only [b64EncSextets, b64DecSextets]
    rw [if_pos (by omega)]
    have e1 : b1 / 4 * 4 + (b1 % 4 * 16 + b2 / 16) / 16 = b1 := by omega
    have e2 : (b1 % 4 * 16 + b2 / 16) % 16 * 16 + b2 % 16 * 4 / 4 = b2 := by omega
    rw [e1, e2]
  | b1 :: b2 :: b3 :: rest, h => by
    have hb1 : b1 < 256 := h b1 (by simp)
    have hb2 : b2 < 256 := h b2 (by simp)
    have hb3 : b3 < 256 := h b3 (by simp)
    have ih := b64DecSextets_enc rest (fun x hx => h x (by simp [hx]))
    simp only [b64EncSextets, b64DecSextets, ih, Option.map_some']
    have e1 : b1 / 4 * 4 + (b1 % 4 * 16 + b2 / 16) / 16 = b1 := by omega
    have e2 : (b1 % 4 * 16 + b2 / 16) % 16 * 16 + (b2 % 16 * 4 + b3 / 64) / 4 = b2 := by
      omega
    have e3 : (b2 % 16 * 4 + b3 / 64) % 4 * 64 + b3 % 64 = b3 := by omega
    rw [e1, e2, e3]

/-- A successful sextet decode forces the sextets to be the encoding of the
produced bytes, all below 256. -/
lemma b64DecSextets_inv : ∀ (ss : List Nat) (bs : List Nat),
    (∀ s ∈ ss, s < 64) → b64DecSextets ss = some bs →
    b64EncSextets bs = ss ∧ ∀ b ∈ bs, b < 256
  | [], bs, _, h => by
    simp only [b64DecSextets, Option.some.injEq] at h
    subst h
    exact ⟨rfl, by simp⟩
  | [s1], bs, _, h => by
    simp [b64DecSextets] at h
  | [s1, s2], bs, hlt, h => by
    have h1 : s1 < 64 := hlt s1 (by simp)
    have h2 : s2 < 64 := hlt s2 (by simp)
    simp only [b64DecSextets] at h
    split_ifs at h with hz
    injection h with h
    subst h
    refine ⟨?_, ?_⟩
    · simp only [b64EncSextets]
      have e1 : (s1 * 4 + s2 / 16) / 4 = s1 := by omega
      have e2 : (s1 * 4 + s2 / 16) % 4 * 16 = s2 := by omega
      rw [e1, e2]
    · intro b hb
      simp only [List.mem_cons, List.not_mem_nil, or_false] at hb
      omega
  | [s1, s2, s3], bs, hlt, h => by
    have h1 : s1 < 64 := hlt s1 (by simp)
    have h2 : s2 < 64 := hlt s2 (by simp)
    have h3 : s3 < 64 := hlt s3 (by simp)
    simp only [b64DecSextets] at h
    split_ifs at h with hz
    injection h with h
    subst h
    refine ⟨?_, ?_⟩
    · simp only [b64EncSextets]
      have e1 : (s1 * 4 + s2 / 16) / 4 = s1 := by omega
      have e2 : (s1 * 4 + s2 / 16) % 4 * 16 + (s2 % 16 * 16 + s3 / 4) / 16 = s2 := by
        omega
      have e3 : (s2 % 16 * 16 + s3 / 4) % 16 * 4 = s3 := by omega
      rw [e1, e2, e3]
    · intro b hb
      simp only [List.mem_cons, List.not_mem_nil, or_false] at hb
      rcases hb with h4 | h4 <;> omega
  | s1 :: s2 :: s3 :: s4 :: rest, bs, hlt, h => by
    have h1 : s1 < 64 := hlt s1 (by simp)
    have h2 : s2 < 64 := hlt s2 (by simp)
    have h3 : s3 < 64 := hlt s3 (by simp)
    have h4 : s4 < 64 := hlt s4 (by simp)
    simp only [b64DecSextets, Option.map_eq_some'] at h
    obtain ⟨bs', hbs', hcons⟩ := h
    subst hcons
    obtain ⟨henc, hblt⟩ :=
      b64DecSextets_inv rest bs' (fun x hx => hlt x (by simp [hx])) hbs'
    refine ⟨?_, ?_⟩
    · simp only [b64EncSextets, henc]
      have e1 : (s1 * 4 + s2 / 16) / 4 = s1 := by omega
      have e2 : (s1 * 4 + s2 / 16) % 4 * 16 + (s2 % 16 * 16 + s3 / 4) / 16 = s2 := by
        omega
      have e3 : (s2 % 16 * 16 + s3 / 4) % 16 * 4 + (s3 % 4 * 64 + s4) / 64 = s3 := by
        omega
      have e4 : (s3 % 4 * 64 + s4) % 64 = s4 := by omega
      rw [e1, e2, e3, e4]
    · intro b hb
      simp only [List.mem_cons] at hb
      rcases hb with h5 | h5 | h5 | h5
      · omega
      · omega
      · omega
      · exact hblt b h5

/-- Full round trip: decoding the padding-free base64 rendering of any byte
sequence succeeds and returns the bytes. -/
lemma b64_roundtrip (bs : List Nat) (h : ∀ b ∈ bs, b < 256) :
    b64Decode (b64Encode bs) = some bs := by
  unfold b64Decode b64Encode
  have hd : (String.mk ((b64EncSextets bs).map b64Char)).data =
      (b64EncSextets bs).map b64Char := rfl
  rw [hd, charsToSextets_map _ (b64EncSextets_lt bs h)]
  simpa using b64DecSextets_enc bs h

/-- `zk_decompress` on an encoded byte sequence yields its hex rendering. -/
lemma zk_decompress_encode (bs : List Nat) (h : ∀ b ∈ bs, b < 256) :
    zk_decompress (b64Encode bs) = some (hexEncode bs) := by
  unfold zk_decompress
  rw [b64_roundtrip bs h]
  rfl

/-! ## Digest shape lemmas and the encode/decode claims -/

/-- The four big-endian bytes of a word are bytes. -/
lemma wordBytes_lt (w : Nat) : ∀ b ∈ wordBytes w, b < 256 := by
  intro b hb
  simp only [wordBytes, List.mem_cons, List.not_mem_nil, or_false] at hb
  rcases hb with h | h | h | h <;> omega

/-- Every SHA-256 digest byte is below 256. -/
lemma sha256_lt (m : List Nat) : ∀ b ∈ sha256 m, b < 256 := by
  intro b hb
  simp only [sha256, stateBytes, List.mem_append] at hb
  rcases hb with ((((((h | h) | h) | h) | h) | h) | h) | h <;> exact wordBytes_lt _ b h

/-- Every SHA-256 digest has exactly 32 bytes. -/
lemma sha256_length (m : List Nat) : (sha256 m).length = 32 := by
  simp [sha256, stateBytes, wordBytes]

/-- Closed form for the number of sextets an encoding produces. -/
lemma b64EncSextets_length : ∀ bs : List Nat,
    (b64EncSextets bs).length = (bs.length * 4 + 2) / 3
  | [] => by simp [b64EncSextets]
  | [_] => by simp [b64EncSextets]
  | [_, _] => by simp [b64EncSextets]
  | b1 :: b2 :: b3 :: rest => by
    simp only [b64EncSextets, List.length_cons, b64EncSextets_length rest]
    omega

/-- Every `zk_compress` output has exactly 43 characters: the digest length
is fixed at 32 bytes regardless of input, and padding-free base64 renders
32 bytes as 43 characters. -/
lemma zk_compress_length (s : String) : (zk_compress s).length = 43 := by
  show ((b64EncSextets (sha256 (utf8Bytes s))).map b64Char).length = 43
  rw [List.length_map, b64EncSextets_length, sha256_length]

/-- C3: the summary encoder is exactly padding-free base64 of the SHA-256
digest of the UTF-8 bytes of the sorted-key JSON serialization of the
summary value, and its output length is the fixed 43 characters whatever
the input. -/
theorem C3_encode_shape :
    (∀ v : Option (String × Nat),
      encodeSummary v = b64Encode (sha256 (utf8Bytes (summaryJson v)))) ∧
    (∀ s : String, (zk_compress s).length = 43) :=
  ⟨fun _ => rfl, zk_compress_length⟩

/-- C4: decoding-for-inspection after the base64 stage succeeds on every
byte sequence and returns its hex rendering; in particular on the full
pipeline it recovers exactly the hex of the digest of the input string,
never the original value. -/
theorem C4_roundtrip :
    (∀ bs : List Nat, (∀ b ∈ bs, b < 256) →
      zk_decompress (b64Encode bs) = some (hexEncode bs)) ∧
    (∀ s : String,
      zk_decompress (zk_compress s) = some (hexEncode (sha256 (utf8Bytes s)))) :=
  ⟨zk_decompress_encode, fun s => zk_decompress_encode _ (sha256_lt (utf8Bytes s))⟩

/-- C4 witness: the base64 round trip at a concrete byte sequence. -/
theorem C4_witness :
    zk_decompress (b64Encode [0, 77, 255]) = some (hexEncode [0, 77, 255]) :=
  C4_roundtrip.1 [0, 77, 255] (by decide)

/-- C7: `zk_decompress` succeeds exactly on strings that are the padding-free
base64 encoding of some byte sequence — every other string, the example
`"!!!"` among them, yields the decode error value and nothing worse (the
embedding is a total function, so no input can crash it). -/
theorem C7_decode_error_iff :
    (∀ s : String, (zk_decompress s).isSome = true ↔
      ∃ bs : List Nat, (∀ b ∈ bs, b < 256) ∧ b64Encode bs = s) ∧
    zk_decompress "!!!" = none := by
  constructor
  · intro s
    constructor
    · intro hs
      have hb : (b64Decode s).isSome = true := by
        simpa [zk_decompress] using hs
      obtain ⟨bs, hbs⟩ := Option.isSome_iff_exists.mp hb
      unfold b64Decode at hbs
      obtain ⟨ss, hss, hdec⟩ := Option.bind_eq_some.mp hbs
      obtain ⟨hcs, hlt⟩ := charsToSextets_inv s.data ss hss
      obtain ⟨henc, hblt⟩ := b64DecSextets_inv ss bs hlt hdec
      refine ⟨bs, hblt, ?_⟩
      unfold b64Encode
      rw [henc, ← hcs]
    · rintro ⟨bs, hlt, rfl⟩
      simp [zk_decompress, b64_roundtrip bs hlt]
  · rfl

/-- C7 witness: a concrete valid padding-free base64 string decodes
successfully. -/
theorem C7_witness : (zk_decompress "TWFu").isSome = true :=
  (C7_decode_error_iff.1 "TWFu").mpr ⟨[77, 97, 110], by decide, by decide⟩

end Solfhe
